import Mathlib

/-!
Verification of `Source/Engine/Platform/Base/StringUtilsBase.cpp`:
case-insensitive substring search, UTF-8 → UTF-16 transcoding,
path normalization, integer-to-decimal formatting and the float-parse
wrapper.  The C++ routines are shallowly embedded: machine integers
become `Nat`/`Int` (with explicit `% 2^w` where overflow matters),
caller-owned buffers become explicit functional state, and fallible
paths return `Option`.
-/

/-! ## Integer formatting (`StringUtils::ToString`)

The C++ code writes two decimal digits at a time, from the least
significant end, into a fixed stack buffer
`char buf[STRING_UTILS_ITOSTR_BUFFER_SIZE]` (`= 15`), via a cursor
`char* it` that starts at `&buf[13]` and moves down.  We model the
buffer as an `Int`-indexed partial map so that writes below index 0
(the C++ buffer underflow) are representable and observable, and we
track the minimal index ever written. -/

/-- The constant `STRING_UTILS_ITOSTR_BUFFER_SIZE` from the source. -/
def STRING_UTILS_ITOSTR_BUFFER_SIZE : Nat := 15

/-- The 200-character digit-pair lookup table `digit_pairs` from the source
(`digit_pairs[2*k]`, `digit_pairs[2*k+1]` are the two decimal digits of `k`). -/
def digit_pairs : String :=
  "00010203040506070809" ++
  "10111213141516171819" ++
  "20212223242526272829" ++
  "30313233343536373839" ++
  "40414243444546474849" ++
  "50515253545556575859" ++
  "60616263646566676869" ++
  "70717273747576777879" ++
  "80818283848586878889" ++
  "90919293949596979899"

/-- Read `digit_pairs[k]` (all accesses in the code satisfy `k < 200`). -/
def dpGet (k : Nat) : Char := digit_pairs.toList.getD k ' '

/-- The fixed formatting buffer: an `Int`-indexed partial map of written
characters plus the minimal index written so far (initialized one past the
end, i.e. `15`).  Indexing over `Int` lets the model express writes before
the start of the C++ array. -/
structure IBuf where
  mem : Int → Option Char
  minW : Int

/-- The untouched buffer at the start of each `ToString` call. -/
def IBuf.empty : IBuf := ⟨fun _ => none, 15⟩

/-- Write one character at index `j` (`*it = c`). -/
def IBuf.write (b : IBuf) (j : Int) (c : Char) : IBuf :=
  ⟨fun k => if k = j then some c else b.mem k, min b.minW j⟩

/-- Embedding of `Platform::MemoryCopy(it, &digit_pairs[2*r], 2)`: write the two digit
characters of `r` (`0 ≤ r < 100`) at indices `it` and `it + 1`. -/
def writePair (b : IBuf) (it : Int) (r : Nat) : IBuf :=
  (b.write it (dpGet (2 * r))).write (it + 1) (dpGet (2 * r + 1))

/-- Read back one buffer cell (the code only reads cells it has written). -/
def IBuf.read (b : IBuf) (j : Int) : Char := (b.mem j).getD '?'

/-- The characters at indices `lo, lo+1, …, lo+n-1` — the span handed to the
`String(it, length)` constructor at the end of `ToString`. -/
def readRange (b : IBuf) (lo : Int) (n : Nat) : List Char :=
  (List.range n).map fun (k : Nat) => b.read (lo + (k : Int))

/-- The digit-pair loop of the unsigned/non-negative `ToString` branches:
`div = value / 100; while (div) { MemoryCopy(it, &digit_pairs[2*(value - div*100)], 2); value = div; it -= 2; div = value / 100; }`.
Returns the final `value`, `it` and buffer. -/
def uloop (value : Nat) (it : Int) (b : IBuf) : Nat × Int × IBuf :=
  if value / 100 = 0 then (value, it, b)
  else uloop (value / 100) (it - 2) (writePair b it (value % 100))
termination_by value
decreasing_by omega

/-- Embedding of `StringUtils::ToString(uint32 / uint64)` (both overloads run the same
algorithm; the quotient fits the signed intermediate in both).  Returns the
characters of the produced `String`, the final cursor, and the buffer. -/
def ToStringU (value : Nat) : List Char × Int × IBuf :=
  let r := uloop value 13 IBuf.empty
  let b := writePair r.2.2 r.2.1 r.1
  let it : Int := if r.1 < 10 then r.2.1 + 1 else r.2.1
  (readRange b it (15 - it).toNat, it, b)

/-- The digit-pair loop of the negative branch of the signed `ToString`:
C++ `/` on negative operands truncates toward zero, i.e. `Int.tdiv`;
the pair index is `digit_pairs[-2 * (value - div * 100)]`. -/
def iloopNeg (value : Int) (it : Int) (b : IBuf) : Int × Int × IBuf :=
  if value.tdiv 100 = 0 then (value, it, b)
  else iloopNeg (value.tdiv 100) (it - 2)
    (writePair b it (-(value - value.tdiv 100 * 100)).toNat)
termination_by value.natAbs
decreasing_by
  rename_i h
  rcases value with m | m
  · have hm : (Int.ofNat m).tdiv 100 = Int.ofNat (m / 100) := rfl
    rw [hm] at h ⊢
    have _h2 : m / 100 ≠ 0 := fun h0 => h (by rw [h0]; rfl)
    show m / 100 < m
    omega
  · have hm : (Int.negSucc m).tdiv 100 = -Int.ofNat ((m + 1) / 100) := rfl
    rw [hm] at h ⊢
    rw [Int.natAbs_neg]
    have _h2 : (m + 1) / 100 ≠ 0 := fun h0 => h (by rw [h0]; rfl)
    show (m + 1) / 100 < m + 1
    omega

/-- Embedding of `StringUtils::ToString(int32 / int64)` (both overloads run the same
algorithm; no intermediate overflows for any value of the respective type,
including the minimum, since the value itself is never negated).  For
`value ≥ 0` the branch is textually the unsigned algorithm.  For
`value < 0`, after the loop the final pair is written, the cursor steps
back once more when the remaining value has two digits, and `'-'` is
stored at the cursor. -/
def ToStringI (value : Int) : List Char × Int × IBuf :=
  if 0 ≤ value then ToStringU value.toNat
  else
    let r := iloopNeg value 13 IBuf.empty
    let b := writePair r.2.2 r.2.1 (-r.1).toNat
    let it : Int := if r.1 ≤ -10 then r.2.1 - 1 else r.2.1
    let b := b.write it '-'
    (readRange b it (15 - it).toNat, it, b)

/-! ## Reference decimal representation and a conventional base-10 parser -/

/-- The character of the decimal digit `d` (`0 ≤ d ≤ 9`). -/
def digitChar (d : Nat) : Char := Char.ofNat (48 + d)

/-- The canonical (minimal, no leading zero) decimal digit string of a
natural number — the reference against which `ToString` is compared. -/
def natDecimal (v : Nat) : List Char :=
  if v < 10 then [digitChar v]
  else natDecimal (v / 10) ++ [digitChar (v % 10)]
termination_by v
decreasing_by omega

/-- Conventional base-10 parse of an unsigned digit string: requires at
least one character, all characters decimal digits. -/
def parseNat (s : List Char) : Option Nat :=
  if s ≠ [] ∧ s.all Char.isDigit then
    some (s.foldl (fun a c => 10 * a + (c.toNat - 48)) 0)
  else none

/-- Conventional base-10 parser for possibly-negated decimal text: an
optional leading `'-'` followed by one or more digits. -/
def parseDec (s : List Char) : Option Int :=
  if s.head? = some '-' then (parseNat s.tail).map (fun (n : Nat) => -(n : Int))
  else (parseNat s).map (fun (n : Nat) => (n : Int))

/-! ## UTF-8 → UTF-16 (`StringUtils::ConvertUTF82UTF16`)

The input is the byte sequence `from[0..fromLength)` (values `< 256`,
read through `unsigned char`), the output a caller-owned 16-bit unit
buffer `to` (modelled as `Nat → Nat`, arbitrary initial contents, values
reduced mod `2^16` on write) plus `*toLength` (set to `0` on entry).

Phase 1 (validation/decoding into the local `Array<unsigned long> unicode`)
is the loop over `from`; on any malformed byte the C++ function logs and
returns early — observably `*toLength = 0` with `to` untouched.  The loop
is embedded as a structural state machine: `pending = some (uni, todo)`
means the code is inside a multi-byte sequence with `todo` continuation
bytes still required (the bit masks `& 0x1F`, `& 0x0F`, `& 0x07`, `& 0x3F`
are `% 32`, `% 16`, `% 8`, `% 64`).  The surrogate/range check that the
source performs after every assembled `uni` is applied when the last
continuation byte arrives; for single-byte sequences `uni = ch ≤ 0x7F`
makes it vacuous, exactly as in the source. -/

/-- Phase 1 of `ConvertUTF82UTF16`: the decoding loop.  `none` is the
`LOG + return` path (malformed UTF-8), `some l` the list of code points
accumulated in `unicode`. -/
def decodeGo (bytes : List Nat) (pending : Option (Nat × Nat)) :
    Option (List Nat) :=
  match bytes, pending with
  | [], none => some []
  | [], some _ => none
  | ch :: rest, none =>
    if ch ≤ 0x7F then (decodeGo rest none).map (ch :: ·)
    else if ch ≤ 0xBF then none
    else if ch ≤ 0xDF then decodeGo rest (some (ch % 32, 1))
    else if ch ≤ 0xEF then decodeGo rest (some (ch % 16, 2))
    else if ch ≤ 0xF7 then decodeGo rest (some (ch % 8, 3))
    else none
  | ch :: rest, some (uni, todo) =>
    if ch < 0x80 ∨ 0xBF < ch then none
    else
      let uni2 := uni * 64 + ch % 64
      if todo ≤ 1 then
        if (0xD800 ≤ uni2 ∧ uni2 ≤ 0xDFFF) ∨ 0x10FFFF < uni2 then none
        else (decodeGo rest none).map (uni2 :: ·)
      else decodeGo rest (some (uni2, todo - 1))

/-- Phase 2 of `ConvertUTF82UTF16`, the `// Count chars` loop:
`for (i = 0; i < length; i++) if (unicode[i] > 0xFFFF) length++;` with
`length` initialized to `unicode.Count()`.  The loop visits `i = 0, 1, 2, …`
in order, so the embedding carries the suffix `l = unicode[i..]` alongside
`i` (at the top of each iteration `unicode[i]` is the head of `l`).  The
mutated loop bound `length` can exceed the array's element count, in which
case `unicode[i]` is read past the end of the array (`l` exhausted while
`i < length`) — modelled as `none`. -/
def countLoop (l : List Nat) (i length : Nat) : Option Nat :=
  if i < length then
    match l with
    | [] => none
    | u :: rest => countLoop rest (i + 1) (if 0xFFFF < u then length + 1 else length)
  else some length

/-- Phase 3 of `ConvertUTF82UTF16`, the `// Copy chars` loop, carrying the
suffix `l = unicode[i..]` alongside `i` exactly as in `countLoop`.  The
index `i` simultaneously walks `unicode` and the output buffer; the
surrogate branch advances it twice — skipping `unicode[i+1]`, hence the
extra `match` dropping one element (with the next loop iteration inlined
when the skip passes the end of the array) — and adds (`+=`, mod `2^16`) the pair
units to the buffer's existing contents (`(uni >> 10) = uni / 1024`,
`(uni & 0x3FF) = uni % 1024`).  Reads of `unicode` past the end of the
array are modelled as `none`. -/
def copyLoop (l : List Nat) (length i : Nat) (buf : Nat → Nat) :
    Option (Nat → Nat) :=
  if i < length then
    match l with
    | [] => none
    | uni :: rest =>
      if uni ≤ 0xFFFF then
        copyLoop rest length (i + 1) (Function.update buf i uni)
      else
        let uni2 := uni - 0x10000
        let buf1 := Function.update buf i ((buf i + (uni2 / 1024 + 0xD800)) % 65536)
        let buf2 := Function.update buf1 (i + 1) ((buf1 (i + 1) + (uni2 % 1024 + 0xDC00)) % 65536)
        match rest with
        | [] => if i + 2 < length then none else some buf2
        | _ :: rest2 => copyLoop rest2 length (i + 2) buf2
  else some buf

/-- Embedding of `StringUtils::ConvertUTF82UTF16`.  The observable outcome is the pair
`(*toLength, to)`: on the malformed-input early return it is `(0, to0)`
(the length was zeroed on entry, the buffer never touched); on success it
is `(length, to')`.  An out-of-bounds `unicode[i]` access in phases 2-3
(which the bugs described above make reachable) is modelled as `none`. -/
def ConvertUTF82UTF16 (from_ : List Nat) (to0 : Nat → Nat) :
    Option (Nat × (Nat → Nat)) :=
  match decodeGo from_ none with
  | none => some (0, to0)
  | some unicode =>
    match countLoop unicode 0 unicode.length with
    | none => none
    | some length =>
      match copyLoop unicode length 0 to0 with
      | none => none
      | some to1 => some (length, to1)

/-! ## Path normalization (`StringUtils::PathRemoveRelativeParts`)

Paths are `List Char`.  The separator normalization, the split and the
re-join are performed by collaborators (`FileSystem::NormalizePath`,
`String::Split`, `String::operator/=`) whose code is not part of the
source under verification; they are modelled from the spec.  The stack
fold over the segments is the code of `PathRemoveRelativeParts` itself. -/

/-- Modelled from the spec: `FileSystem::NormalizePath` (external
collaborator, §4.4 step 1) converts all separators to the canonical
forward slash. -/
def normalizeSep (p : List Char) : List Char :=
  p.map fun c => if c = '\\' then '/' else c

/-- Helper for `splitSlash`: returns the segment currently being read
(leftmost) and the remaining segments. -/
def splitSlashAux (l : List Char) : List Char × List (List Char) :=
  match l with
  | [] => ([], [])
  | c :: rest =>
    let r := splitSlashAux rest
    if c = '/' then ([], if r.1 = [] then r.2 else r.1 :: r.2)
    else (c :: r.1, r.2)

/-- Modelled from the spec: `String::Split(TEXT('/'), components)`
(§4.4 steps 2 and the tie-break) — split on `'/'`, dropping empty
segments (consecutive separators collapse). -/
def splitSlash (l : List Char) : List (List Char) :=
  let r := splitSlashAux l
  if r.1 = [] then r.2 else r.1 :: r.2

/-- Modelled from the spec: re-joining the surviving stack with the
canonical separator (`path /= e` over the stack, §4.4 step 4). -/
def joinSlash : List (List Char) → List Char
  | [] => []
  | [s] => s
  | s :: rest => s ++ '/' :: joinSlash rest

/-- The body of the `for (auto& bit : components)` loop of
`PathRemoveRelativeParts`: `".."` pops the stack top unless the stack is
empty or the top is itself `".."` (then `".."` is pushed); `"."` is
skipped; anything else is pushed.  The stack is kept top-first (the
C++ `Array` keeps the top last); `pathStack` reverses at the end. -/
def pathStep (stack : List (List Char)) (bit : List Char) : List (List Char) :=
  if bit = ['.', '.'] then
    match stack with
    | [] => [bit]
    | popped :: rest => if popped = ['.', '.'] then bit :: popped :: rest else rest
  else if bit = ['.'] then stack
  else bit :: stack

/-- The surviving stack of `PathRemoveRelativeParts`, in output order. -/
def pathStack (comps : List (List Char)) : List (List Char) :=
  (comps.foldl pathStep []).reverse

/-- Embedding of `StringUtils::PathRemoveRelativeParts`: normalize separators, split,
fold the segments through the stack, re-join, and re-prepend `'/'` when
the (normalized) input was rooted. -/
def PathRemoveRelativeParts (path : List Char) : List Char :=
  let q := normalizeSep path
  let stack := pathStack (splitSlash q)
  (if q.head? = some '/' then ['/'] else []) ++ joinSlash stack

/-! ## Case-insensitive find (`StringUtils::FindIgnoreCase`)

Both overloads (16-bit `Char` and 8-bit `char`) run the same algorithm;
strings are modelled as lists of code-unit values (no interior NUL, the
terminator is read explicitly as `0`).  The return value is the match
index (`some`) or the null pointer (`none`). -/

/-- Modelled from the spec: `StringUtils::ToUpper` (the §2 CaseFold
collaborator, declared in `StringUtils.h`): ASCII `'a'..'z'` map to
`'A'..'Z'`, every other code unit is unchanged. -/
def ToUpper (c : Nat) : Nat := if 97 ≤ c ∧ c ≤ 122 then c - 32 else c

/-- Modelled from the spec: `StringUtils::CompareIgnoreCase(str1, str2,
maxCount)` (strnicmp-like, declared in `StringUtils.h`): compare up to
`maxCount` code units of two NUL-terminated strings under ASCII case
folding, returning `0` on equality; `maxCount ≤ 0` compares nothing. -/
def CompareIgnoreCase (a b : List Nat) (n : Int) : Int :=
  if n ≤ 0 then 0
  else
    match a, b with
    | [], [] => 0
    | [], b0 :: _ => 0 - (ToUpper b0 : Int)
    | a0 :: _, [] => (ToUpper a0 : Int)
    | a0 :: as_, b0 :: bs =>
      if ToUpper a0 = ToUpper b0 then CompareIgnoreCase as_ bs (n - 1)
      else (ToUpper a0 : Int) - (ToUpper b0 : Int)

/-- The scanning loop of `FindIgnoreCase` (`while (strChar) { ... }`):
`str` is the rest of the haystack after the current character, `idx` the
index of the current character; on a first-unit match a bounded
case-insensitive compare of the remainders decides. -/
def FindIgnoreCaseGo (findInitial : Nat) (tfRest : List Nat) (length : Int)
    (str : List Nat) (idx : Nat) : Option Nat :=
  match str with
  | [] => none
  | c :: cs =>
    if ToUpper c = findInitial ∧ CompareIgnoreCase cs tfRest length = 0 then
      some idx
    else FindIgnoreCaseGo findInitial tfRest length cs (idx + 1)

/-- Embedding of `StringUtils::FindIgnoreCase(str, toFind)` (both overloads):
`findInitial = ToUpper(*toFind)` (the NUL terminator, value `0`, when
`toFind` is empty), `length = Length(toFind) - 1` (so `-1` when `toFind`
is empty), then the linear scan.  Null-pointer arguments are outside this
model (they return the null sentinel before the scan). -/
def FindIgnoreCase (str toFind : List Nat) : Option Nat :=
  FindIgnoreCaseGo (ToUpper (toFind.headD 0)) toFind.tail
    ((toFind.length : Int) - 1) str 0

/-! ## Float parse wrapper (`StringUtils::Parse(const Char*, float*)`)

The numeric primitive `wcstof` is external floating-point code; only its
zero test `v == 0` feeds the wrapper's logic, so the wrapper is embedded
with that test abstracted as a boolean input.  The returned flag is the
C++ `bool` return value: `true` means the parse is reported failed,
`false` means success (Flax convention, cf. §4.6/§8: success=true -- the
boolean here is the raw return, i.e. `success = (flag = false)`). -/

/-- The zero-literal recognizer of `StringUtils::Parse`:
`str[0]=='0' && (len==1 || (len==3 && (str[1]==','||str[1]=='.') && str[2]=='0'))`
(out-of-range reads hit the NUL terminator, modelled as `Char.ofNat 0`). -/
def isZeroLiteral (str : List Char) : Bool :=
  str.getD 0 (Char.ofNat 0) = '0' ∧
    (str.length = 1 ∨
      (str.length = 3 ∧ (str.getD 1 (Char.ofNat 0) = ',' ∨ str.getD 1 (Char.ofNat 0) = '.') ∧
        str.getD 2 (Char.ofNat 0) = '0'))

/-- Embedding of `StringUtils::Parse(const Char* str, float* result)`, with the
`wcstof` result abstracted to its zero test `vIsZero`: the returned
`Bool` is `true` (failure) for a zero parse result on anything but the
recognized zero literals, `false` (success) otherwise. -/
def ParseFloatFlag (vIsZero : Bool) (str : List Char) : Bool :=
  if vIsZero then !(isZeroLiteral str) else false

/-! ## Lemmas: the digit table and canonical decimal strings -/

theorem dpGet_pair : ∀ r < 100,
    dpGet (2 * r) = digitChar (r / 10) ∧ dpGet (2 * r + 1) = digitChar (r % 10) := by
  decide

theorem digitChar_spec : ∀ d < 10,
    (digitChar d).isDigit = true ∧ (digitChar d).toNat = 48 + d ∧
      digitChar d ≠ '-' ∧ (digitChar d = '0' ↔ d = 0) := by
  decide

theorem natDecimal_ne_nil (v : Nat) : natDecimal v ≠ [] := by
  rw [natDecimal]
  split <;> simp

theorem natDecimal_length_pos (v : Nat) : 0 < (natDecimal v).length :=
  List.length_pos.mpr (natDecimal_ne_nil v)

theorem natDecimal_all_digits (v : Nat) : ∀ c ∈ natDecimal v, c.isDigit = true := by
  induction v using Nat.strong_induction_on with
  | _ v ih =>
    rw [natDecimal]
    split
    · rename_i h
      intro c hc
      simp only [List.mem_singleton] at hc
      subst hc
      exact (digitChar_spec v h).1
    · rename_i h
      intro c hc
      rcases List.mem_append.mp hc with h1 | h1
      · exact ih (v / 10) (by omega) c h1
      · simp only [List.mem_singleton] at h1
        subst h1
        exact (digitChar_spec (v % 10) (by omega)).1

theorem natDecimal_head_ne_zero (v : Nat) (h : v ≠ 0) :
    (natDecimal v).head? ≠ some '0' := by
  induction v using Nat.strong_induction_on with
  | _ v ih =>
    rw [natDecimal]
    split
    · rename_i hv
      intro h0
      rw [List.head?_cons] at h0
      injection h0 with h0
      exact h (((digitChar_spec v hv).2.2.2).mp h0)
    · rename_i hv
      rcases hl : natDecimal (v / 10) with _ | ⟨c, t⟩
      · exact absurd hl (natDecimal_ne_nil _)
      · have := ih (v / 10) (by omega) (by omega)
        rw [hl] at this
        simpa using this

theorem natDecimal_length_le (k : Nat) : ∀ v, v < 10 ^ k → 1 ≤ k →
    (natDecimal v).length ≤ k := by
  induction k with
  | zero => omega
  | succ k ih =>
    intro v hv _
    rw [natDecimal]
    split
    · simp
    · rename_i h10
      have hk : 1 ≤ k := by
        by_contra hc
        have : k = 0 := by omega
        subst this
        simp at hv
        omega
      have := ih (v / 10) (by
        have := Nat.pow_succ 10 k
        rw [Nat.div_lt_iff_lt_mul (by omega)]
        omega) hk
      simp only [List.length_append, List.length_singleton]
      omega

theorem natDecimal_foldl (v : Nat) : ∀ a : Nat,
    (natDecimal v).foldl (fun x c => 10 * x + (c.toNat - 48)) a =
      a * 10 ^ (natDecimal v).length + v := by
  induction v using Nat.strong_induction_on with
  | _ v ih =>
    intro a
    rw [natDecimal]
    split
    · rename_i hv
      simp only [List.foldl_cons, List.foldl_nil, List.length_singleton, pow_one]
      rw [(digitChar_spec v hv).2.1]
      omega
    · rename_i hv
      rw [List.foldl_append, List.length_append]
      rw [ih (v / 10) (by omega) a]
      simp only [List.foldl_cons, List.foldl_nil, List.length_singleton]
      rw [(digitChar_spec (v % 10) (by omega)).2.1]
      have hp : 10 ^ ((natDecimal (v / 10)).length + 1) =
          10 ^ (natDecimal (v / 10)).length * 10 := by
        rw [pow_succ]
      rw [hp]
      have hdm := Nat.div_add_mod v 10
      ring_nf
      omega

theorem parseNat_natDecimal (v : Nat) : parseNat (natDecimal v) = some v := by
  rw [parseNat, if_pos]
  · rw [natDecimal_foldl v 0]
    simp
  · exact ⟨natDecimal_ne_nil v, List.all_eq_true.mpr (natDecimal_all_digits v)⟩

theorem natDecimal_head_ne_minus (v : Nat) :
    (natDecimal v).head? ≠ some '-' := by
  rcases hl : natDecimal v with _ | ⟨c, t⟩
  · exact absurd hl (natDecimal_ne_nil _)
  · have hc : c.isDigit = true := by
      apply natDecimal_all_digits v
      rw [hl]
      exact List.mem_cons_self c t
    intro h0
    rw [List.head?_cons] at h0
    injection h0 with h0
    subst h0
    exact absurd hc (by decide)

/-! ## Lemmas: the formatting buffer -/

theorem IBuf.mem_write_self (b : IBuf) (j : Int) (c : Char) :
    (b.write j c).mem j = some c := by
  simp [IBuf.write]

theorem IBuf.mem_write_ne (b : IBuf) (j k : Int) (c : Char) (h : k ≠ j) :
    (b.write j c).mem k = b.mem k := by
  simp [IBuf.write, h]

theorem IBuf.minW_write (b : IBuf) (j : Int) (c : Char) :
    (b.write j c).minW = min b.minW j := rfl

theorem writePair_mem_lo (b : IBuf) (it : Int) (r : Nat) :
    (writePair b it r).mem it = some (dpGet (2 * r)) := by
  rw [writePair, IBuf.mem_write_ne _ _ _ _ (by omega), IBuf.mem_write_self]

theorem writePair_mem_hi (b : IBuf) (it : Int) (r : Nat) :
    (writePair b it r).mem (it + 1) = some (dpGet (2 * r + 1)) := by
  rw [writePair, IBuf.mem_write_self]

theorem writePair_mem_ne (b : IBuf) (it k : Int) (r : Nat)
    (h1 : k ≠ it) (h2 : k ≠ it + 1) :
    (writePair b it r).mem k = b.mem k := by
  rw [writePair, IBuf.mem_write_ne _ _ _ _ h2, IBuf.mem_write_ne _ _ _ _ h1]

theorem writePair_minW (b : IBuf) (it : Int) (r : Nat) :
    (writePair b it r).minW = min b.minW it := by
  rw [writePair, IBuf.minW_write, IBuf.minW_write]
  omega

theorem readRange_zero (b : IBuf) (lo : Int) : readRange b lo 0 = [] := rfl

theorem readRange_succ (b : IBuf) (lo : Int) (n : Nat) :
    readRange b lo (n + 1) = b.read lo :: readRange b (lo + 1) n := by
  rw [readRange, readRange, List.range_succ_eq_map, List.map_cons, List.map_map]
  congr 1
  · simp
  · apply List.map_congr_left
    intro k _
    simp only [Function.comp_apply]
    congr 1
    push_cast
    ring

theorem readRange_split (b : IBuf) (lo : Int) (m n : Nat) :
    readRange b lo (m + n) = readRange b lo m ++ readRange b (lo + m) n := by
  induction m generalizing lo with
  | zero => simp [readRange_zero]
  | succ m ih =>
    have h1 : m + 1 + n = (m + n) + 1 := by omega
    rw [h1, readRange_succ, readRange_succ, ih]
    simp only [List.cons_append, List.cons.injEq, true_and]
    congr 2
    push_cast
    ring

theorem readRange_congr (b b' : IBuf) (lo : Int) (n : Nat)
    (h : ∀ j : Int, lo ≤ j → j < lo + n → b.mem j = b'.mem j) :
    readRange b lo n = readRange b' lo n := by
  rw [readRange, readRange]
  apply List.map_congr_left
  intro k hk
  rw [List.mem_range] at hk
  rw [IBuf.read, IBuf.read, h (lo + k) (by omega) (by omega)]

/-! ## Lemmas: the formatting loops -/

theorem natDecimal_append100 (v : Nat) (h : ¬ v / 100 = 0) :
    natDecimal v
      = natDecimal (v / 100) ++ [digitChar (v / 10 % 10), digitChar (v % 10)] := by
  have h1 : ¬ v < 10 := by omega
  have h2 : ¬ v / 10 < 10 := by omega
  rw [natDecimal, if_neg h1]
  rw [natDecimal, if_neg h2]
  rw [Nat.div_div_eq_div_mul]
  norm_num

theorem uloop_spec (v : Nat) : ∀ (it : Int) (b : IBuf),
    (uloop v it b).1 < 100 ∧
    (if (uloop v it b).1 < 10 then (uloop v it b).2.1 + 1 else (uloop v it b).2.1)
      = it + 2 - ((natDecimal v).length : Int) ∧
    readRange (writePair (uloop v it b).2.2 (uloop v it b).2.1 (uloop v it b).1)
      (it + 2 - ((natDecimal v).length : Int)) (natDecimal v).length = natDecimal v ∧
    (∀ j : Int, it + 2 ≤ j →
      (writePair (uloop v it b).2.2 (uloop v it b).2.1 (uloop v it b).1).mem j
        = b.mem j) ∧
    (writePair (uloop v it b).2.2 (uloop v it b).2.1 (uloop v it b).1).minW
      = min b.minW (uloop v it b).2.1 := by
  induction v using Nat.strong_induction_on with
  | _ v ih =>
    intro it b
    by_cases h100 : v / 100 = 0
    · have hu : uloop v it b = (v, it, b) := by
        rw [uloop, if_pos h100]
      rw [hu]
      have hlen : (natDecimal v).length = if v < 10 then 1 else 2 := by
        rw [natDecimal]
        by_cases h10 : v < 10
        · simp [h10]
        · rw [if_neg h10, if_neg h10, natDecimal, if_pos (by omega)]
          simp
      refine ⟨by omega, ?_, ?_, ?_, ?_⟩
      · by_cases h10 : v < 10 <;> simp [h10] at hlen ⊢ <;> omega
      · by_cases h10 : v < 10
        · have hs : it + 2 - ((natDecimal v).length : Int) = it + 1 := by
            rw [hlen, if_pos h10]; omega
          rw [hs, hlen, if_pos h10, readRange_succ, readRange_zero]
          rw [natDecimal, if_pos h10]
          rw [IBuf.read, writePair_mem_hi]
          have := (dpGet_pair v (by omega)).2
          rw [Nat.mod_eq_of_lt h10] at this
          rw [this]
          rfl
        · have hs : it + 2 - ((natDecimal v).length : Int) = it := by
            rw [hlen, if_neg h10]; omega
          rw [hs, hlen, if_neg h10, readRange_succ, readRange_succ, readRange_zero]
          rw [natDecimal, if_neg h10, natDecimal, if_pos (by omega)]
          rw [IBuf.read, writePair_mem_lo, IBuf.read, writePair_mem_hi]
          rw [(dpGet_pair v (by omega)).1, (dpGet_pair v (by omega)).2]
          rfl
      · intro j hj
        exact writePair_mem_ne b it j v (by omega) (by omega)
      · exact writePair_minW b it v
    · have hu : uloop v it b = uloop (v / 100) (it - 2) (writePair b it (v % 100)) := by
        rw [uloop, if_neg h100]
      have hv100 : v / 100 < v := by omega
      obtain ⟨ih1, ih2, ih3, ih4, ih5⟩ := ih (v / 100) hv100 (it - 2) (writePair b it (v % 100))
      have hnd := natDecimal_append100 v h100
      have hlen : (natDecimal v).length = (natDecimal (v / 100)).length + 2 := by
        rw [hnd]; simp
      have hn1pos := natDecimal_length_pos (v / 100)
      rw [hu, hlen]
      refine ⟨ih1, ?_, ?_, ?_, ?_⟩
      · rw [ih2]
        push_cast
        ring
      · have hs : it + 2 - (((natDecimal (v / 100)).length + 2 : Nat) : Int)
            = it - 2 + 2 - ((natDecimal (v / 100)).length : Int) := by
          push_cast; ring
        rw [hs, readRange_split, ih3]
        have hs2 : it - 2 + 2 - ((natDecimal (v / 100)).length : Int)
            + ((natDecimal (v / 100)).length : Int) = it := by ring
        rw [hs2, readRange_succ, readRange_succ, readRange_zero]
        rw [IBuf.read, ih4 it (by omega), writePair_mem_lo]
        rw [IBuf.read, ih4 (it + 1) (by omega), writePair_mem_hi]
        rw [(dpGet_pair (v % 100) (by omega)).1, (dpGet_pair (v % 100) (by omega)).2]
        have e1 : v % 100 / 10 = v / 10 % 10 := by omega
        have e2 : v % 100 % 10 = v % 10 := by omega
        rw [e1, e2, hnd]
        rfl
      · intro j hj
        rw [ih4 j (by omega)]
        exact writePair_mem_ne b it j (v % 100) (by omega) (by omega)
      · rw [ih5, writePair_minW]
        have hX : (uloop (v / 100) (it - 2) (writePair b it (v % 100))).2.1 ≤ it - 1 := by
          by_cases h10 : (uloop (v / 100) (it - 2) (writePair b it (v % 100))).1 < 10
          · rw [if_pos h10] at ih2; omega
          · rw [if_neg h10] at ih2; omega
        omega

theorem ToStringU_chars (v : Nat) : (ToStringU v).1 = natDecimal v := by
  obtain ⟨_h1, h2, h3, _h4, _h5⟩ := uloop_spec v 13 IBuf.empty
  simp only [ToStringU]
  rw [h2]
  have ht : ((15 : Int) - (13 + 2 - ((natDecimal v).length : Int))).toNat
      = (natDecimal v).length := by omega
  rw [ht]
  exact h3

theorem ToStringU_minW (v : Nat) :
    14 - ((natDecimal v).length : Int) ≤ (ToStringU v).2.2.minW := by
  obtain ⟨_h1, h2, _h3, _h4, h5⟩ := uloop_spec v 13 IBuf.empty
  simp only [ToStringU]
  rw [h5]
  have he : IBuf.empty.minW = 15 := rfl
  rw [he]
  have hlen := natDecimal_length_pos v
  by_cases h10 : (uloop v 13 IBuf.empty).1 < 10
  · rw [if_pos h10] at h2
    omega
  · rw [if_neg h10] at h2
    omega

theorem iloopNeg_eq (n : Nat) : ∀ (it : Int) (b : IBuf), 0 < n →
    iloopNeg (-(n : Int)) it b
      = (-((uloop n it b).1 : Int), (uloop n it b).2.1, (uloop n it b).2.2) := by
  induction n using Nat.strong_induction_on with
  | _ n ih =>
    intro it b hn
    obtain ⟨m, rfl⟩ : ∃ m, n = m + 1 := ⟨n - 1, by omega⟩
    have htd : (-(((m + 1 : Nat) : Int))).tdiv 100 = -(((m + 1) / 100 : Nat) : Int) := rfl
    by_cases h100 : (m + 1) / 100 = 0
    · have hz : (-(((m + 1 : Nat) : Int))).tdiv 100 = 0 := by
        rw [htd, h100]
        rfl
      rw [iloopNeg, if_pos hz, uloop, if_pos h100]
    · have hnz : ¬ (-(((m + 1 : Nat) : Int))).tdiv 100 = 0 := by
        rw [htd]
        intro hc
        exact h100 (by omega)
      rw [iloopNeg, if_neg hnz, uloop, if_neg h100]
      have hrem : (-(-(((m + 1 : Nat)) : Int)
            - (-(((m + 1 : Nat)) : Int)).tdiv 100 * 100)).toNat = (m + 1) % 100 := by
        rw [htd]
        omega
      rw [hrem, htd]
      exact ih ((m + 1) / 100) (by omega) (it - 2) (writePair b it ((m + 1) % 100))
        (by omega)

theorem ToStringI_nonneg (v : Int) (h : 0 ≤ v) : ToStringI v = ToStringU v.toNat := by
  simp only [ToStringI, if_pos h]

theorem ToStringI_neg_spec (n : Nat) (hn : 0 < n) :
    (ToStringI (-(n : Int))).1 = '-' :: natDecimal n ∧
    (ToStringI (-(n : Int))).2.2.minW = 14 - ((natDecimal n).length : Int) := by
  have hneg : ¬ (0 : Int) ≤ -(n : Int) := by omega
  obtain ⟨h1, h2, h3, _h4, h5⟩ := uloop_spec n 13 IBuf.empty
  simp only [ToStringI, if_neg hneg]
  rw [iloopNeg_eq n 13 IBuf.empty hn]
  simp only [neg_neg, Int.toNat_natCast]
  have hlen := natDecimal_length_pos n
  have hit2 : (if -((uloop n 13 IBuf.empty).1 : Int) ≤ -10
        then (uloop n 13 IBuf.empty).2.1 - 1 else (uloop n 13 IBuf.empty).2.1)
      = 14 - ((natDecimal n).length : Int) := by
    by_cases h10 : (uloop n 13 IBuf.empty).1 < 10
    · rw [if_neg (by omega)]
      rw [if_pos h10] at h2
      omega
    · rw [if_pos (by omega)]
      rw [if_neg h10] at h2
      omega
  rw [hit2]
  have hcount : ((15 : Int) - (14 - ((natDecimal n).length : Int))).toNat
      = (natDecimal n).length + 1 := by omega
  rw [hcount, readRange_succ]
  constructor
  · congr 1
    · rw [IBuf.read, IBuf.mem_write_self]
      rfl
    · have hlo : (14 : Int) - ((natDecimal n).length : Int) + 1
          = 13 + 2 - ((natDecimal n).length : Int) := by ring
      rw [hlo]
      rw [readRange_congr _
        (writePair (uloop n 13 IBuf.empty).2.2 (uloop n 13 IBuf.empty).2.1
          (uloop n 13 IBuf.empty).1) _ _ ?_]
      · exact h3
      · intro j hj _hj2
        exact IBuf.mem_write_ne _ _ _ _ (by omega)
  · rw [IBuf.minW_write, h5]
    have he : IBuf.empty.minW = 15 := rfl
    rw [he]
    by_cases h10 : (uloop n 13 IBuf.empty).1 < 10
    · rw [if_pos h10] at h2
      omega
    · rw [if_neg h10] at h2
      omega

theorem parseDec_natDecimal (v : Nat) : parseDec (natDecimal v) = some (v : Int) := by
  simp only [parseDec]
  rw [if_neg (natDecimal_head_ne_minus v), parseNat_natDecimal]
  rfl

theorem parseDec_negDecimal (n : Nat) :
    parseDec ('-' :: natDecimal n) = some (-(n : Int)) := by
  simp only [parseDec]
  rw [if_pos (show ('-' :: natDecimal n).head? = some '-' from rfl),
    List.tail_cons, parseNat_natDecimal]
  rfl

/-- C1: for every value of each supported integer type (int32 and int64 are
the signed model `ToStringI`, uint32 and uint64 the unsigned model
`ToStringU`; the theorem covers the full `Int`/`Nat` ranges and hence all
four types), parsing the text produced by `ToString` with a conventional
base-10 parser yields the value back. -/
theorem c1_tostring_parse_roundtrip :
    (∀ v : Int, parseDec (ToStringI v).1 = some v) ∧
    (∀ v : Nat, parseDec (ToStringU v).1 = some (v : Int)) := by
  have hU : ∀ v : Nat, parseDec (ToStringU v).1 = some (v : Int) := by
    intro v
    rw [ToStringU_chars, parseDec_natDecimal]
  refine ⟨?_, hU⟩
  intro v
  by_cases h : 0 ≤ v
  · rw [ToStringI_nonneg v h, hU]
    congr 1
    omega
  · have hv : v = -(v.natAbs : Int) := by omega
    rw [hv, (ToStringI_neg_spec v.natAbs (by omega)).1, parseDec_negDecimal]

/-- C4: the text produced by `ToString` is the canonical minimal decimal
form: the unsigned output is exactly the canonical digit string
`natDecimal`, the signed output prepends exactly one `'-'` iff the value
is negative, the value `0` yields `"0"`, a nonzero value never starts
with the digit `'0'`, and no `'-'` occurs among the digits. -/
theorem c4_minimal_digits :
    (∀ n : Nat, (ToStringU n).1 = natDecimal n) ∧
    (∀ v : Int, 0 ≤ v → (ToStringI v).1 = natDecimal v.toNat) ∧
    (∀ v : Int, v < 0 → (ToStringI v).1 = '-' :: natDecimal v.natAbs) ∧
    natDecimal 0 = ['0'] ∧
    (∀ n : Nat, n ≠ 0 → (natDecimal n).head? ≠ some '0') ∧
    (∀ n : Nat, '-' ∉ natDecimal n) := by
  refine ⟨ToStringU_chars, ?_, ?_, by rw [natDecimal]; rfl, natDecimal_head_ne_zero, ?_⟩
  · intro v h
    rw [ToStringI_nonneg v h, ToStringU_chars]
  · intro v hv
    have h1 : v = -(v.natAbs : Int) := by omega
    nth_rewrite 1 [h1]
    exact (ToStringI_neg_spec v.natAbs (by omega)).1
  · intro n hmem
    have := natDecimal_all_digits n '-' hmem
    exact absurd this (by decide)

theorem c4_minimal_digits_witness :
    (ToStringI (-5)).1 = '-' :: natDecimal (Int.natAbs (-5)) ∧
    (natDecimal 3).head? ≠ some '0' :=
  ⟨c4_minimal_digits.2.2.1 (-5) (by decide), c4_minimal_digits.2.2.2.2.1 3 (by decide)⟩

theorem natDecimal_length_ge (k : Nat) : ∀ v, 10 ^ k ≤ v →
    k + 1 ≤ (natDecimal v).length := by
  induction k with
  | zero =>
    intro v _
    have := natDecimal_length_pos v
    omega
  | succ k ih =>
    intro v hv
    have hpow : (10 : Nat) ^ 1 ≤ 10 ^ (k + 1) :=
      Nat.pow_le_pow_right (by norm_num) (by omega)
    have h10 : ¬ v < 10 := by
      rw [pow_one] at hpow
      omega
    rw [natDecimal, if_neg h10]
    simp only [List.length_append, List.length_singleton]
    have hd : 10 ^ k ≤ v / 10 := by
      rw [Nat.le_div_iff_mul_le (by norm_num)]
      rw [pow_succ] at hv
      omega
    have := ih (v / 10) hd
    omega

/-- C3 (counterexample to the claim as stated): formatting the signed
64-bit minimum `-9223372036854775808` (19 digits plus sign, 20 characters)
drives the write cursor down to buffer index `-5`: writes occur before the
start of the fixed 15-byte buffer, so 15 characters do not suffice for the
longest 64-bit representations. -/
theorem c3_counterexample_int64_min :
    (ToStringI (-9223372036854775808)).2.2.minW = -5 ∧
    (ToStringI (-9223372036854775808)).2.2.minW < 0 := by
  have hv : (-9223372036854775808 : Int) = -((9223372036854775808 : Nat) : Int) := by
    norm_num
  have hlen : (natDecimal 9223372036854775808).length = 19 := by
    have ha := natDecimal_length_ge 18 9223372036854775808 (by norm_num)
    have hb := natDecimal_length_le 19 9223372036854775808 (by norm_num) (by norm_num)
    omega
  rw [hv, (ToStringI_neg_spec 9223372036854775808 (by norm_num)).2, hlen]
  norm_num

/-- C3 (amended): all writes performed by `ToString` stay inside the
15-byte buffer (the minimal written index is non-negative) for exactly
those 64-bit values whose magnitude is below `10^14`; the signed 64-bit
minimum and other larger-magnitude values write before the buffer start
(see the counterexample). -/
theorem c3_amended_buffer_safety :
    (∀ v : Int, -(10 ^ 14) < v → v < 10 ^ 14 → 0 ≤ (ToStringI v).2.2.minW) ∧
    (∀ n : Nat, n < 10 ^ 14 → 0 ≤ (ToStringU n).2.2.minW) := by
  have hU : ∀ n : Nat, n < 10 ^ 14 → 0 ≤ (ToStringU n).2.2.minW := by
    intro n hn
    have hle := natDecimal_length_le 14 n hn (by norm_num)
    have := ToStringU_minW n
    omega
  refine ⟨?_, hU⟩
  intro v h1 h2
  by_cases h : 0 ≤ v
  · rw [ToStringI_nonneg v h]
    refine hU v.toNat ?_
    have hp : ((10 ^ 14 : Nat) : Int) = 10 ^ 14 := by norm_num
    omega
  · have hv : v = -(v.natAbs : Int) := by omega
    have hlt : v.natAbs < 10 ^ 14 := by
      have hp : ((10 ^ 14 : Nat) : Int) = 10 ^ 14 := by norm_num
      omega
    have hle := natDecimal_length_le 14 v.natAbs hlt (by norm_num)
    have hspec := (ToStringI_neg_spec v.natAbs (by omega)).2
    nth_rewrite 1 [hv]
    rw [hspec]
    omega

theorem c3_amended_buffer_safety_witness :
    0 ≤ (ToStringI 12345).2.2.minW ∧ 0 ≤ (ToStringU 12345).2.2.minW :=
  ⟨c3_amended_buffer_safety.1 12345 (by norm_num) (by norm_num),
   c3_amended_buffer_safety.2 12345 (by norm_num)⟩

/-! ## Claims about the UTF-8 → UTF-16 conversion -/

/-- C2 (evaluation at the failing input): the 4-byte encoding of code
point `0x1F600` decodes correctly in phase 1, but the conversion as a
whole does not produce the surrogate pair `(0xD83D, 0xDE00)`: the
counting loop's growing bound makes it read `unicode[1]` past the end of
the one-element code-point array (and the copy loop would `+=` the pair
into uninitialized output units and then misindex), modelled as `none`. -/
theorem c2_surrogate_emission_fails :
    decodeGo [0xF0, 0x9F, 0x98, 0x80] none = some [0x1F600] ∧
    ConvertUTF82UTF16 [0xF0, 0x9F, 0x98, 0x80] (fun _ => 0) = none :=
  ⟨rfl, rfl⟩

/-- C5 (evaluation at the failing input): on the truncated sequence
`[0xE2]` the function logs and returns early, leaving `*toLength = 0` and
the output buffer untouched — an outcome byte-for-byte identical to the
successful conversion of the empty input, so failure is not reported
distinctly from success. -/
theorem c5_failure_indistinct_from_success :
    ConvertUTF82UTF16 [0xE2] (fun _ => 0) = ConvertUTF82UTF16 [] (fun _ => 0) ∧
    ConvertUTF82UTF16 [0xE2] (fun _ => 0) = some (0, fun _ => 0) :=
  ⟨rfl, rfl⟩

/-- C10: on every input rejected as malformed UTF-8 (phase 1 returns the
error path), the conversion is atomic: the whole input is validated before
any write to the output, the reported length is `0` and the output buffer
is exactly the caller's initial buffer. -/
theorem c10_reject_atomic (bytes : List Nat) (to0 : Nat → Nat)
    (h : decodeGo bytes none = none) :
    ConvertUTF82UTF16 bytes to0 = some (0, to0) := by
  unfold ConvertUTF82UTF16
  rw [h]

theorem c10_reject_atomic_witness :
    ConvertUTF82UTF16 [0xE2] (fun _ => 1) = some (0, fun _ => 1) :=
  c10_reject_atomic [0xE2] (fun _ => 1) rfl

/-! ## Claims about path normalization -/

/-- C6: `PathRemoveRelativeParts` maps `"a/./b/../c"` to `"a/c"`, and maps
the absolute path `"/a/../../b"` to `"/../b"` — a `".."` that cannot be
resolved against a previous ordinary segment is kept literally. -/
theorem c6_normalize_examples :
    PathRemoveRelativeParts "a/./b/../c".toList = "a/c".toList ∧
    PathRemoveRelativeParts "/a/../../b".toList = "/../b".toList :=
  ⟨rfl, rfl⟩

theorem splitSlashAux_no_slash (l : List Char) :
    '/' ∉ (splitSlashAux l).1 ∧
      ∀ s ∈ (splitSlashAux l).2, s ≠ [] ∧ '/' ∉ s := by
  induction l with
  | nil => simp [splitSlashAux]
  | cons c rest ih =>
    rw [splitSlashAux]
    by_cases hc : c = '/'
    · rw [if_pos hc]
      refine ⟨by simp, ?_⟩
      by_cases h0 : (splitSlashAux rest).1 = []
      · rw [if_pos h0]
        exact ih.2
      · rw [if_neg h0]
        intro s hs
        rcases List.mem_cons.mp hs with h | h
        · subst h
          exact ⟨h0, ih.1⟩
        · exact ih.2 s h
    · rw [if_neg hc]
      refine ⟨?_, ih.2⟩
      intro hmem
      rcases List.mem_cons.mp hmem with h | h
      · exact hc h.symm
      · exact ih.1 h

theorem splitSlash_elem (l : List Char) :
    ∀ s ∈ splitSlash l, s ≠ [] ∧ '/' ∉ s := by
  have h := splitSlashAux_no_slash l
  rw [splitSlash]
  by_cases h0 : (splitSlashAux l).1 = []
  · rw [if_pos h0]
    exact h.2
  · rw [if_neg h0]
    intro s hs
    rcases List.mem_cons.mp hs with hh | hh
    · subst hh
      exact ⟨h0, h.1⟩
    · exact h.2 s hh

theorem splitSlash_slash_cons (l : List Char) :
    splitSlash ('/' :: l) = splitSlash l := by
  rw [splitSlash, splitSlash, splitSlashAux]
  rw [if_pos rfl]
  simp

theorem splitSlashAux_no_slash_self (s : List Char) (h : '/' ∉ s) :
    splitSlashAux s = (s, []) := by
  induction s with
  | nil => rfl
  | cons c rest ih =>
    rw [splitSlashAux]
    have hc : ¬ c = '/' := fun hh => h (by rw [hh]; exact List.mem_cons_self _ _)
    rw [if_neg hc, ih (fun hm => h (List.mem_cons_of_mem c hm))]

theorem splitSlashAux_seg_slash (s t : List Char) (h : '/' ∉ s) :
    splitSlashAux (s ++ '/' :: t) = (s, splitSlash t) := by
  induction s with
  | nil =>
    rw [List.nil_append, splitSlashAux, if_pos rfl]
    rw [splitSlash]
  | cons c rest ih =>
    have hc : ¬ c = '/' := fun hh => h (by rw [hh]; exact List.mem_cons_self _ _)
    rw [List.cons_append, splitSlashAux, if_neg hc]
    rw [ih (fun hm => h (List.mem_cons_of_mem c hm))]

theorem splitSlash_join : ∀ L : List (List Char),
    (∀ s ∈ L, s ≠ [] ∧ '/' ∉ s) → splitSlash (joinSlash L) = L := by
  intro L
  induction L with
  | nil => intro _; rfl
  | cons s rest ih =>
    intro hL
    have hs := hL s (List.mem_cons_self s rest)
    cases rest with
    | nil =>
      rw [joinSlash, splitSlash, splitSlashAux_no_slash_self s hs.2, if_neg hs.1]
    | cons s2 rest2 =>
      rw [joinSlash, splitSlash, splitSlashAux_seg_slash s _ hs.2]
      rw [ih (fun x hx => hL x (List.mem_cons_of_mem s hx))]
      rw [if_neg hs.1]
      exact fun h => List.noConfusion h

theorem foldl_pathStep_inv (comps : List (List Char)) :
    ∀ (bits stack : List (List Char)),
      (∀ x ∈ bits, x ∈ comps ∧ x ≠ [] ∧ '/' ∉ x) →
      (∀ s ∈ stack, s ≠ [] ∧ '/' ∉ s ∧ s ≠ ['.'] ∧ (s = ['.', '.'] → ['.', '.'] ∈ comps)) →
      ∀ s ∈ List.foldl pathStep stack bits,
        s ≠ [] ∧ '/' ∉ s ∧ s ≠ ['.'] ∧ (s = ['.', '.'] → ['.', '.'] ∈ comps) := by
  intro bits
  induction bits with
  | nil =>
    intro stack _ hstack
    simpa using hstack
  | cons b rest ih =>
    intro stack hbits hstack
    rw [List.foldl_cons]
    have hb := hbits b (List.mem_cons_self b rest)
    apply ih
    · intro x hx
      exact hbits x (List.mem_cons_of_mem b hx)
    · intro s hs
      rw [pathStep.eq_def] at hs
      by_cases hdd : b = ['.', '.']
      · rw [if_pos hdd] at hs
        cases stack with
        | nil =>
          simp only [List.mem_singleton] at hs
          subst hs
          exact ⟨hb.2.1, hb.2.2, by rw [hdd]; decide, fun _ => hdd ▸ hb.1⟩
        | cons popped rest' =>
          have hs2 : s ∈ (if popped = ['.', '.'] then b :: popped :: rest' else rest') := hs
          by_cases hp : popped = ['.', '.']
          · rw [if_pos hp] at hs2
            rcases List.mem_cons.mp hs2 with h | h
            · subst h
              exact ⟨hb.2.1, hb.2.2, by rw [hdd]; decide, fun _ => hdd ▸ hb.1⟩
            · exact hstack s h
          · rw [if_neg hp] at hs2
            exact hstack s (List.mem_cons_of_mem popped hs2)
      · rw [if_neg hdd] at hs
        by_cases hdot : b = ['.']
        · rw [if_pos hdot] at hs
          exact hstack s hs
        · rw [if_neg hdot] at hs
          rcases List.mem_cons.mp hs with h | h
          · subst h
            exact ⟨hb.2.1, hb.2.2, hdot, fun hc => absurd hc hdd⟩
          · exact hstack s h

theorem splitSlash_pathRemove (p : List Char) :
    splitSlash (PathRemoveRelativeParts p)
      = pathStack (splitSlash (normalizeSep p)) := by
  have hinv : ∀ s ∈ pathStack (splitSlash (normalizeSep p)),
      s ≠ [] ∧ '/' ∉ s ∧ s ≠ ['.'] ∧
        (s = ['.', '.'] → ['.', '.'] ∈ splitSlash (normalizeSep p)) := by
    intro s hs
    rw [pathStack, List.mem_reverse] at hs
    exact foldl_pathStep_inv (splitSlash (normalizeSep p)) (splitSlash (normalizeSep p))
      [] (fun x hx => ⟨hx, splitSlash_elem _ x hx⟩) (by simp) s hs
  have hQ : ∀ s ∈ pathStack (splitSlash (normalizeSep p)), s ≠ [] ∧ '/' ∉ s :=
    fun s hs => ⟨(hinv s hs).1, (hinv s hs).2.1⟩
  simp only [PathRemoveRelativeParts]
  by_cases hr : (normalizeSep p).head? = some '/'
  · rw [if_pos hr, List.singleton_append, splitSlash_slash_cons]
    exact splitSlash_join _ hQ
  · rw [if_neg hr, List.nil_append]
    exact splitSlash_join _ hQ

theorem pathStack_inv (p : List Char) :
    ∀ s ∈ pathStack (splitSlash (normalizeSep p)),
      s ≠ [] ∧ '/' ∉ s ∧ s ≠ ['.'] ∧
        (s = ['.', '.'] → ['.', '.'] ∈ splitSlash (normalizeSep p)) := by
  intro s hs
  rw [pathStack, List.mem_reverse] at hs
  exact foldl_pathStep_inv (splitSlash (normalizeSep p)) (splitSlash (normalizeSep p))
    [] (fun x hx => ⟨hx, splitSlash_elem _ x hx⟩) (by simp) s hs

/-- C7 (counterexample to the claim as stated): the input `"/a/../../b"`
is absolute (begins with the separator), yet its normalized output
`"/../b"` begins with a `".."` segment — contradicting "never when the
original path was absolute". -/
theorem c7_counterexample_absolute_dotdot :
    "/a/../../b".toList.head? = some '/' ∧
    PathRemoveRelativeParts "/a/../../b".toList = "/../b".toList ∧
    (splitSlash (PathRemoveRelativeParts "/a/../../b".toList)).head? = some ['.', '.'] :=
  ⟨rfl, rfl, rfl⟩

/-- C7 (amended): the output of `PathRemoveRelativeParts` contains no `"."`
segment, and a `".."` segment appears in the output (in particular as its
first segment) only when the input itself contained a `".."` segment that
could not be resolved against a previous ordinary segment — which can
happen for absolute paths as well, the unresolved `".."` being kept after
the leading separator. -/
theorem c7_amended_output_segments (p : List Char) :
    ['.'] ∉ splitSlash (PathRemoveRelativeParts p) ∧
    ∀ s ∈ splitSlash (PathRemoveRelativeParts p), s = ['.', '.'] →
      ['.', '.'] ∈ splitSlash (normalizeSep p) := by
  rw [splitSlash_pathRemove]
  constructor
  · intro hmem
    exact (pathStack_inv p _ hmem).2.2.1 rfl
  · intro s hs hdd
    exact (pathStack_inv p s hs).2.2.2 hdd

theorem c7_amended_output_segments_witness :
    ['.', '.'] ∈ splitSlash (normalizeSep "/a/../../b".toList) :=
  (c7_amended_output_segments "/a/../../b".toList).2 ['.', '.'] (by decide) rfl

/-! ## Claims about case-insensitive find and the float parse wrapper -/

theorem ToUpper_ne_zero (c : Nat) (h : c ≠ 0) : ToUpper c ≠ 0 := by
  unfold ToUpper
  split <;> omega

/-- C8 (evaluation/refutation): with an empty needle, `FindIgnoreCase`
returns the null not-found sentinel for every haystack (of NUL-free code
units) — never a match at the start: `findInitial` is the upper-case of
the needle's NUL terminator (`0`), which no haystack character equals, so
the scan falls off the end; the concrete second conjunct evaluates the
code on the haystack `"hello"`. -/
theorem c8_empty_needle_not_found :
    (∀ str : List Nat, (∀ c ∈ str, c ≠ 0) → FindIgnoreCase str [] = none) ∧
    FindIgnoreCase [104, 101, 108, 108, 111] [] = none := by
  have hgo : ∀ (str : List Nat), (∀ c ∈ str, c ≠ 0) → ∀ idx : Nat,
      FindIgnoreCaseGo (ToUpper 0) [] (-1) str idx = none := by
    intro str
    induction str with
    | nil =>
      intro _ idx
      rfl
    | cons c cs ih =>
      intro h idx
      rw [FindIgnoreCaseGo]
      rw [if_neg]
      · exact ih (fun x hx => h x (List.mem_cons_of_mem c hx)) (idx + 1)
      · intro hand
        exact ToUpper_ne_zero c (h c (List.mem_cons_self c cs))
          (hand.1.trans (rfl : ToUpper 0 = 0))
  constructor
  · intro str h
    exact hgo str h 0
  · rfl

theorem c8_empty_needle_not_found_witness :
    FindIgnoreCase [104, 105] [] = none :=
  c8_empty_needle_not_found.1 [104, 105] (by decide)

theorem isZeroLiteral_iff (s : List Char) :
    isZeroLiteral s = true ↔
      s = ['0'] ∨ s = ['0', '.', '0'] ∨ s = ['0', ',', '0'] := by
  rcases s with _ | ⟨a, _ | ⟨b, _ | ⟨c, _ | ⟨d, t⟩⟩⟩⟩
  · simp [isZeroLiteral]
  · simp [isZeroLiteral]
  · simp [isZeroLiteral]
  · constructor
    · intro hz
      simp only [isZeroLiteral, List.getD_cons_zero, List.getD_cons_succ,
        List.length_cons, List.length_nil, decide_eq_true_eq] at hz
      obtain ⟨ha, h3⟩ := hz
      rcases h3 with h1 | ⟨-, hb | hb, hc⟩
      · omega
      · subst ha; subst hb; subst hc
        right; right; rfl
      · subst ha; subst hb; subst hc
        right; left; rfl
    · intro h
      rcases h with h | h | h
      · simp at h
      · injection h with ha h
        injection h with hb h
        injection h with hc _
        subst ha; subst hb; subst hc
        rfl
      · injection h with ha h
        injection h with hb h
        injection h with hc _
        subst ha; subst hb; subst hc
        rfl
  · constructor
    · intro hz
      exfalso
      simp only [isZeroLiteral, List.getD_cons_zero, List.getD_cons_succ,
        List.length_cons, decide_eq_true_eq] at hz
      omega
    · rintro (h | h | h) <;> simp at h

/-- C9: the float `Parse` wrapper reports success (boolean return `false`,
in the Flax error-flag convention) exactly when the numeric primitive's
result is non-zero or the text is one of the literals `"0"`, `"0.0"`,
`"0,0"`; every other text whose numeric result is zero is reported as a
failure.  In particular a zero result on `"0.0"` is success and a zero
result on `"abc"` (which `wcstof` parses as `0`) is failure. -/
theorem c9_float_parse_zero_policy :
    (∀ (vIsZero : Bool) (s : List Char),
      ParseFloatFlag vIsZero s = false ↔
        (vIsZero = false ∨ s = "0".toList ∨ s = "0.0".toList ∨ s = "0,0".toList)) ∧
    ParseFloatFlag true "0.0".toList = false ∧
    ParseFloatFlag true "abc".toList = true := by
  refine ⟨?_, rfl, rfl⟩
  intro vz s
  cases vz with
  | false => simp [ParseFloatFlag]
  | true =>
    have h0 : "0".toList = ['0'] := rfl
    have h1 : "0.0".toList = ['0', '.', '0'] := rfl
    have h2 : "0,0".toList = ['0', ',', '0'] := rfl
    rw [h0, h1, h2]
    show (!isZeroLiteral s) = false ↔
      (true = false ∨ s = ['0'] ∨ s = ['0', '.', '0'] ∨ s = ['0', ',', '0'])
    rw [Bool.not_eq_false', isZeroLiteral_iff]
    simp
